import Mathlib

/-!
Verification of the nnmt / lif_meanfield_tools numerical core.

This file shallowly embeds the numerical routines of
`lif_meanfield_tools/aux_calcs.py` and `lif_meanfield_tools/lif/exp.py`
(Siegert firing-rate branches, Gauss-Legendre order search, transfer-function
frequency dispatch, Taylor-rate warning, propagator, power spectra,
sensitivity-measure eigenvalue selection, and the overflow-safe Phi helpers)
and settles the frozen claims C1..C10 about them.

External numerical library primitives (scipy special functions, the
Gauss-Legendre nodes and weights from roots_legendre) are modelled either as
explicit parameters constrained by their true mathematical properties, or as
their defining real integrals.
-/

namespace Nnmt

/-! ## Branch masks of the Siegert rate engine

The vectorized code in `nu_0` (aux_calcs.py, lines 120-133) and `_nu0_dPhi`
(lif/exp.py, lines 307-325) separates domains per element as

    mask_exc = y_th < 0
    mask_inh = 0 < y_r
    mask_interm = (y_r <= 0) & (0 <= y_th)
-/

def mask_exc (y_th : ℝ) : Prop := y_th < 0

def mask_inh (y_r : ℝ) : Prop := 0 < y_r

def mask_interm (y_th y_r : ℝ) : Prop := y_r ≤ 0 ∧ 0 ≤ y_th

/-! ## Gauss-Legendre order search

`_get_erfcx_integral_gl_order` (aux_calcs.py, lines 179-199) doubles the
quadrature order starting from `start_order` for at most `maxiter` rounds,
returning the first order whose fixed-order Gauss-Legendre estimate matches
the adaptive reference within relative tolerance `epsrel`, and otherwise
raising a RuntimeError carrying the last relative error.  The relative error
achieved at a given order, `|I_gl(order)/I_quad - 1|`, is abstracted as a
function `relErr : Nat -> Rat` of the order.  The `Except` value models
the return / raise distinction; the error payload models the relative error
named in the exception message.
-/

def relError (iGl iQuad : ℚ) : ℚ := |iGl / iQuad - 1|

def glOrderLoop (relErr : ℕ → ℚ) (epsrel : ℚ) :
    ℕ → ℕ → ℚ → Except ℚ ℕ
  | 0, _, lastErr => Except.error lastErr
  | n + 1, order, _ =>
      if relErr order < epsrel then Except.ok order
      else glOrderLoop relErr epsrel n (order * 2) (relErr order)

def getErfcxIntegralGlOrder (relErr : ℕ → ℚ) (startOrder : ℕ)
    (epsrel : ℚ) (maxiter : ℕ) : Except ℚ ℕ :=
  glOrderLoop relErr epsrel maxiter startOrder 0

/-! ## Taylor-method firing rate and its negative-rate warning

`_firing_rate_taylor` (lif/exp.py, lines 275-288) computes

    result = nu0 * (1 - np.sqrt(tau_s * tau_m / 2) * alpha * nu0_dPhi)

and emits a non-fatal warning when any element of `result` is negative,
still returning `result` itself.  The per-element products `nu0` and
`nu0_dPhi` are supplied as lists, the scalar prefactor
`np.sqrt(tau_s * tau_m / 2) * alpha` as one parameter `c`; the returned pair
carries the computed rates together with the warning flag.
-/

def firingRateTaylorResult (c : ℚ) (nu0 nu0dPhi : List ℚ) : List ℚ :=
  List.zipWith (fun n d => n * (1 - c * d)) nu0 nu0dPhi

def firingRateTaylor (c : ℚ) (nu0 nu0dPhi : List ℚ) : List ℚ × Bool :=
  let result := firingRateTaylorResult c nu0 nu0dPhi
  (result, result.any (fun x => decide (x < 0)))

end Nnmt

namespace Nnmt

/-- Claim C2: for every element whose shifted coordinates satisfy
`y_r < y_th` (i.e. `V_0_rel < V_th_rel` with positive sigma), exactly one of
the three branch conditions `mask_exc`, `mask_inh`, `mask_interm` holds, so
each element of the vectorized Siegert rate (`nu_0`) and of `_nu0_dPhi` is
computed by exactly one branch: no element is left unassigned and none is
assigned by two branches. -/
theorem branch_masks_exactly_one (y_th y_r : ℝ) (h : y_r < y_th) :
    (mask_exc y_th ∨ mask_inh y_r ∨ mask_interm y_th y_r) ∧
    (¬ (mask_exc y_th ∧ mask_inh y_r)) ∧
    (¬ (mask_exc y_th ∧ mask_interm y_th y_r)) ∧
    (¬ (mask_inh y_r ∧ mask_interm y_th y_r)) := by
  unfold mask_exc mask_inh mask_interm
  constructor
  · rcases lt_or_le y_th 0 with hth | hth
    · exact Or.inl hth
    · rcases lt_or_le 0 y_r with hr | hr
      · exact Or.inr (Or.inl hr)
      · exact Or.inr (Or.inr ⟨hr, hth⟩)
  · refine ⟨fun ⟨h1, h2⟩ => ?_, fun ⟨h1, h2⟩ => ?_, fun ⟨h1, h2⟩ => ?_⟩
    · exact absurd (h2.trans h) (lt_asymm h1)
    · exact absurd (lt_of_lt_of_le h1 h2.2) (lt_irrefl _)
    · exact absurd (lt_of_lt_of_le h1 h2.1) (lt_irrefl _)

/-- Witness for C2 at the concrete intermediate-branch input
`y_th = 1, y_r = -1`. -/
theorem branch_masks_exactly_one_witness :
    (mask_exc 1 ∨ mask_inh (-1) ∨ mask_interm 1 (-1)) ∧
    (¬ (mask_exc 1 ∧ mask_inh (-1))) ∧
    (¬ (mask_exc 1 ∧ mask_interm 1 (-1))) ∧
    (¬ (mask_inh (-1) ∧ mask_interm 1 (-1))) :=
  branch_masks_exactly_one 1 (-1) (by norm_num)

/-- Helper for C3: if every order tried during the remaining `n` rounds fails
the tolerance test, the loop exits with the error payload equal to the
relative error of the last tried order. -/
theorem glOrderLoop_all_fail (relErr : ℕ → ℚ) (epsrel : ℚ) :
    ∀ (n : ℕ) (order lastErr : ℚ) (o : ℕ),
      0 < n →
      (∀ k < n, ¬ relErr (o * 2 ^ k) < epsrel) →
      glOrderLoop relErr epsrel n o lastErr
        = Except.error (relErr (o * 2 ^ (n - 1))) := by
  intro n
  induction n with
  | zero => intro _ _ _ h0 _; exact absurd h0 (lt_irrefl 0)
  | succ m ih =>
      intro order lastErr o _ hfail
      have h0 : ¬ relErr (o * 2 ^ 0) < epsrel := hfail 0 (Nat.succ_pos m)
      simp only [pow_zero, Nat.mul_one] at h0
      rcases Nat.eq_zero_or_pos m with hm | hm
      · subst hm
        simp [glOrderLoop, h0]
      · obtain ⟨j, rfl⟩ : ∃ j, m = j + 1 :=
          ⟨m - 1, (Nat.succ_pred_eq_of_pos hm).symm⟩
        have step : glOrderLoop relErr epsrel (j + 1 + 1) o lastErr
            = glOrderLoop relErr epsrel (j + 1) (o * 2) (relErr o) := by
          simp [glOrderLoop, h0]
        rw [step, ih order (relErr o) (o * 2) hm ?_]
        · congr 2
          simp only [Nat.add_sub_cancel]
          rw [pow_succ]
          ring
        · intro k hk
          have := hfail (k + 1) (Nat.succ_lt_succ hk)
          have harg : o * 2 ^ (k + 1) = o * 2 * 2 ^ k := by ring
          rwa [harg] at this

/-- Helper for C3: if order `o * 2 ^ m` is the first tried order passing the
tolerance test and `m` is within the remaining budget `n`, the loop returns
exactly that order. -/
theorem glOrderLoop_first_success (relErr : ℕ → ℚ) (epsrel : ℚ) :
    ∀ (n m : ℕ) (lastErr : ℚ) (o : ℕ),
      m < n →
      (∀ k < m, ¬ relErr (o * 2 ^ k) < epsrel) →
      relErr (o * 2 ^ m) < epsrel →
      glOrderLoop relErr epsrel n o lastErr
        = Except.ok (o * 2 ^ m) := by
  intro n
  induction n with
  | zero => intro m _ _ hm _ _; exact absurd hm (Nat.not_lt_zero m)
  | succ p ih =>
      intro m lastErr o hm hfirst hsucc
      rcases Nat.eq_zero_or_pos m with h0 | h0
      · subst h0
        simp only [pow_zero, Nat.mul_one] at hsucc
        simp [glOrderLoop, hsucc]
      · obtain ⟨j, rfl⟩ : ∃ j, m = j + 1 :=
          ⟨m - 1, (Nat.succ_pred_eq_of_pos h0).symm⟩
        have hfail0 : ¬ relErr (o * 2 ^ 0) < epsrel := hfirst 0 h0
        simp only [pow_zero, Nat.mul_one] at hfail0
        have step : glOrderLoop relErr epsrel (p + 1) o lastErr
            = glOrderLoop relErr epsrel p (o * 2) (relErr o) := by
          simp [glOrderLoop, hfail0]
        rw [step]
        have hm1 : j < p := by omega
        have harg : o * 2 * 2 ^ j = o * 2 ^ (j + 1) := by
          rw [pow_succ]; ring
        rw [ih j (relErr o) (o * 2) hm1 ?_ ?_]
        · rw [harg]
        · intro k hk
          have := hfirst (k + 1) (by omega)
          have harg2 : o * 2 ^ (k + 1) = o * 2 * 2 ^ k := by ring
          rwa [harg2] at this
        · rwa [harg]

/-- Claim C3: the quadrature-order search with start order 10 and at most 10
doubling rounds returns the first tried order (all tried orders being
`10 * 2 ^ k` with `k < 10`) whose Gauss-Legendre estimate matches the
reference within relative tolerance `epsrel`; if no tried order reaches the
tolerance, it fails with a convergence error carrying the relative error of
the last tried order `10 * 2 ^ 9`.  The achieved relative errors are
abstracted into `relErr`; a second error profile `relErr2` exercises the
failure case within the same statement. -/
theorem gl_order_search_spec (relErr relErr2 : ℕ → ℚ) (epsrel : ℚ) (m : ℕ)
    (hm : m < 10)
    (hfirst : ∀ k < m, ¬ relErr (10 * 2 ^ k) < epsrel)
    (hsucc : relErr (10 * 2 ^ m) < epsrel)
    (hfail : ∀ k < 10, ¬ relErr2 (10 * 2 ^ k) < epsrel) :
    getErfcxIntegralGlOrder relErr 10 epsrel 10 = Except.ok (10 * 2 ^ m) ∧
    getErfcxIntegralGlOrder relErr2 10 epsrel 10
      = Except.error (relErr2 (10 * 2 ^ 9)) := by
  constructor
  · exact glOrderLoop_first_success relErr epsrel 10 m 0 10 hm hfirst hsucc
  · exact glOrderLoop_all_fail relErr2 epsrel 10 10 0 10 (by norm_num) hfail

/-- Witness for C3: a profile converging at the second tried order (20) and a
profile never converging, evaluated concretely. -/
theorem gl_order_search_spec_witness :
    getErfcxIntegralGlOrder (fun o => if o = 20 then 0 else 1) 10 (1/2) 10
      = Except.ok (10 * 2 ^ 1) ∧
    getErfcxIntegralGlOrder (fun _ => 1) 10 (1/2) 10
      = Except.error ((fun _ : ℕ => (1:ℚ)) (10 * 2 ^ 9)) :=
  gl_order_search_spec (fun o => if o = 20 then 0 else 1) (fun _ => 1)
    (1/2) 1 (by norm_num)
    (by intro k hk; interval_cases k <;> norm_num)
    (by norm_num)
    (by intro k hk; norm_num)

/-- Claim C7: the Taylor-method firing rate returns the computed rates
unchanged whether or not any element is negative (no error, no clamping),
and the non-fatal warning is emitted exactly when some element of the
computed result is negative. -/
theorem firing_rate_taylor_warning (c : ℚ) (nu0 nu0dPhi : List ℚ) :
    (firingRateTaylor c nu0 nu0dPhi).1 = firingRateTaylorResult c nu0 nu0dPhi ∧
    ((firingRateTaylor c nu0 nu0dPhi).2 = true ↔
      ∃ x ∈ firingRateTaylorResult c nu0 nu0dPhi, x < 0) := by
  refine ⟨rfl, ?_⟩
  simp [firingRateTaylor, List.any_eq_true]

/-! ## Transfer-function frequency dispatch

`_transfer_function_shift` (lif/exp.py, lines 618-628) masks near-zero
frequencies with `np.abs(omegas) < 1e-15` and fills those entries with the
DC limit (the derivative of the firing rate with respect to the mean input),
the remaining entries with the general parabolic-cylinder formula.
`_transfer_function_taylor` (lines 693-704) instead uses the signed test
`omegas < 1e-15`.  The DC-limit and general-formula values are abstracted
per element into the functions `dc` and `gen`; since the two masks exactly
partition the entries, filling the two masked slices is the per-element
selection below. -/

def omegaEps : ℚ := 1e-15

def transferFunctionShift (dc gen : ℚ → ℚ) (omegas : List ℚ) : List ℚ :=
  omegas.map (fun w => if |w| < omegaEps then dc w else gen w)

def transferFunctionTaylor (dc gen : ℚ → ℚ) (omegas : List ℚ) : List ℚ :=
  omegas.map (fun w => if w < omegaEps then dc w else gen w)

/-- Counterexample for C4: at `omega = -1` we have `|omega| >= 1e-15`, yet
the Taylor-method transfer function returns the DC-limit value (here 0)
instead of the general-formula value (here 1), because the code tests the
signed `omega < 1e-15` rather than `|omega| < 1e-15`. -/
theorem transfer_function_taylor_signed_test_counterexample :
    omegaEps ≤ |(-1 : ℚ)| ∧
    transferFunctionTaylor (fun _ => 0) (fun _ => 1) [-1] = [0] ∧
    transferFunctionShift (fun _ => 0) (fun _ => 1) [-1] = [1] := by
  refine ⟨by norm_num [omegaEps], ?_, ?_⟩ <;>
    simp [transferFunctionTaylor, transferFunctionShift, omegaEps] <;>
    norm_num

/-- Claim C4, amended: for the shift method every entry with
`|omega| < 1e-15` is the DC limit and every entry with `|omega| >= 1e-15`
is the general formula, so its near-zero classification depends only on
`|omega|`; the Taylor method instead classifies by the signed test
`omega < 1e-15`, which agrees with the `|omega|` test for nonnegative
frequencies but sends every negative frequency to the DC branch. -/
theorem transfer_function_zero_dispatch (dc gen : ℚ → ℚ) (w1 w2 w3 w4 : ℚ)
    (h1 : |w1| < omegaEps) (h2 : omegaEps ≤ |w2|)
    (h3 : w3 < omegaEps) (h4 : omegaEps ≤ w4) :
    transferFunctionShift dc gen [w1, w2] = [dc w1, gen w2] ∧
    transferFunctionTaylor dc gen [w3, w4] = [dc w3, gen w4] := by
  constructor
  · simp [transferFunctionShift, if_pos h1, if_neg (not_lt.mpr h2)]
  · simp [transferFunctionTaylor, if_pos h3, if_neg (not_lt.mpr h4)]

/-- Witness for the amended C4 at frequencies 0, 1, -1, 1. -/
theorem transfer_function_zero_dispatch_witness :
    transferFunctionShift (fun _ => 0) (fun _ => 1) [0, 1] = [0, 1] ∧
    transferFunctionTaylor (fun _ => 0) (fun _ => 1) [-1, 1] = [0, 1] :=
  transfer_function_zero_dispatch (fun _ => 0) (fun _ => 1) 0 1 (-1) 1
    (by norm_num [omegaEps]) (by norm_num [omegaEps])
    (by norm_num [omegaEps]) (by norm_num [omegaEps])

/-! ## Overflow fallback of the Taylor-corrected exponential-synapse rate

`nu0_fb433` (aux_calcs.py, lines 68-82) computes the rescaled shifted
threshold `x_th = sqrt(2) * (V_th_rel - mu) / sigma` and, when
`x_th > 20 / sqrt(2)`, returns the pure delta-synapse rate `nu_0` without
evaluating the exponential-synapse correction (whose `Phi` terms would
overflow); otherwise it subtracts the correction term.  The delta rate and
the helper `Phi` are abstracted as the function parameters `nuZero` and
`PhiF`; `alpha` stands for the module constant
`sqrt(2) * abs(zetac(0.5) + 1)`. -/

noncomputable def nu0_fb433 (nuZero : ℝ → ℝ → ℝ → ℝ → ℝ → ℝ → ℝ)
    (PhiF : ℝ → ℝ) (alpha tau_m tau_s tau_r V_th_rel V_0_rel mu sigma : ℝ) :
    ℝ :=
  let x_th := Real.sqrt 2 * (V_th_rel - mu) / sigma
  let x_r := Real.sqrt 2 * (V_0_rel - mu) / sigma
  if 20 / Real.sqrt 2 < x_th then
    nuZero tau_m tau_r V_th_rel V_0_rel mu sigma
  else
    nuZero tau_m tau_r V_th_rel V_0_rel mu sigma
      - Real.sqrt (tau_s / tau_m) * alpha / (tau_m * Real.sqrt 2)
        * (PhiF x_th - PhiF x_r)
        * (nuZero tau_m tau_r V_th_rel V_0_rel mu sigma * tau_m) ^ 2

/-- Claim C5: whenever the rescaled shifted threshold
`x_th = sqrt(2) * (V_th_rel - mu) / sigma` exceeds `20 / sqrt(2)`, the
Taylor-corrected exponential-synapse rate `nu0_fb433` equals the pure
delta-synapse rate at the same parameters, the correction term being
skipped; otherwise (second parameter set) the correction term is subtracted
from the delta-synapse rate. -/
theorem nu0_fb433_overflow_fallback (nuZero : ℝ → ℝ → ℝ → ℝ → ℝ → ℝ → ℝ)
    (PhiF : ℝ → ℝ)
    (alpha tau_m tau_s tau_r V_th_rel V_0_rel mu1 sigma1 mu2 sigma2 : ℝ)
    (h1 : 20 / Real.sqrt 2 < Real.sqrt 2 * (V_th_rel - mu1) / sigma1)
    (h2 : ¬ 20 / Real.sqrt 2 < Real.sqrt 2 * (V_th_rel - mu2) / sigma2) :
    nu0_fb433 nuZero PhiF alpha tau_m tau_s tau_r V_th_rel V_0_rel mu1 sigma1
      = nuZero tau_m tau_r V_th_rel V_0_rel mu1 sigma1 ∧
    nu0_fb433 nuZero PhiF alpha tau_m tau_s tau_r V_th_rel V_0_rel mu2 sigma2
      = nuZero tau_m tau_r V_th_rel V_0_rel mu2 sigma2
        - Real.sqrt (tau_s / tau_m) * alpha / (tau_m * Real.sqrt 2)
          * (PhiF (Real.sqrt 2 * (V_th_rel - mu2) / sigma2)
             - PhiF (Real.sqrt 2 * (V_0_rel - mu2) / sigma2))
          * (nuZero tau_m tau_r V_th_rel V_0_rel mu2 sigma2 * tau_m) ^ 2 := by
  constructor
  · simp only [nu0_fb433]
    rw [if_pos h1]
  · simp only [nu0_fb433]
    rw [if_neg h2]

/-- Witness for C5 with `V_th_rel = 20, mu1 = 0, sigma1 = 1` (overflow
branch, since `20 * sqrt 2 > 20 / sqrt 2`) and `mu2 = 20, sigma2 = 1`
(regular branch, since `x_th = 0`). -/
theorem nu0_fb433_overflow_fallback_witness :
    nu0_fb433 (fun _ _ _ _ _ _ => 1) (fun _ => 0) 1 1 1 1 20 0 0 1
      = (fun _ _ _ _ _ _ => (1:ℝ)) 1 1 20 0 0 1 ∧
    nu0_fb433 (fun _ _ _ _ _ _ => 1) (fun _ => 0) 1 1 1 1 20 0 20 1
      = (fun _ _ _ _ _ _ => (1:ℝ)) 1 1 20 0 20 1
        - Real.sqrt (1 / 1) * 1 / (1 * Real.sqrt 2)
          * ((fun _ => (0:ℝ)) (Real.sqrt 2 * (20 - 20) / 1)
             - (fun _ => (0:ℝ)) (Real.sqrt 2 * (0 - 20) / 1))
          * ((fun _ _ _ _ _ _ => (1:ℝ)) 1 1 20 0 20 1 * 1) ^ 2 := by
  have hs2 : (0:ℝ) < Real.sqrt 2 := Real.sqrt_pos.mpr (by norm_num)
  have hsq : Real.sqrt 2 * Real.sqrt 2 = 2 := Real.mul_self_sqrt (by norm_num)
  refine nu0_fb433_overflow_fallback (fun _ _ _ _ _ _ => 1) (fun _ => 0)
    1 1 1 1 20 0 0 1 20 1 ?_ ?_
  · rw [div_lt_iff hs2]
    have : Real.sqrt 2 * (20 - 0) / 1 * Real.sqrt 2 = 40 := by
      field_simp
      nlinarith [hsq]
    rw [this]
    norm_num
  · rw [not_lt]
    have h20 : Real.sqrt 2 * (20 - 20) / 1 = 0 := by ring
    rw [h20]
    positivity

/-! ## Propagator

`_propagator` (lif/exp.py, lines 1005-1023) inverts `I - W` for the
effective connectivity `W` at each frequency and right-multiplies by `W`. -/

noncomputable def propagator (n : ℕ)
    (effConn : List (Matrix (Fin n) (Fin n) ℂ)) :
    List (Matrix (Fin n) (Fin n) ℂ) :=
  effConn.map (fun W => (1 - W)⁻¹ * W)

/-- Claim C9: at every frequency index at which `I - W` is invertible,
left-multiplying the propagator entry by `I - W` reproduces the effective
connectivity exactly: `(I - W) * ((I - W)⁻¹ * W) = W`. -/
theorem propagator_roundtrip (n : ℕ)
    (effConn : List (Matrix (Fin n) (Fin n) ℂ)) (i : ℕ)
    (hi : i < effConn.length)
    (hdet : IsUnit (1 - effConn.getD i 0).det) :
    (1 - effConn.getD i 0) * ((propagator n effConn).getD i 0)
      = effConn.getD i 0 := by
  have hlen : i < (propagator n effConn).length := by
    simpa [propagator] using hi
  rw [List.getD_eq_getElem _ _ hlen, List.getD_eq_getElem _ _ hi]
  have hmap : (propagator n effConn)[i] =
      (1 - effConn[i])⁻¹ * effConn[i] := by
    simp [propagator]
  rw [hmap, ← Matrix.mul_assoc]
  rw [List.getD_eq_getElem _ _ hi] at hdet
  rw [Matrix.mul_nonsing_inv _ hdet, Matrix.one_mul]

/-- Witness for C9: a single frequency with the zero connectivity matrix on
one population, where `I - W = I` is invertible. -/
theorem propagator_roundtrip_witness :
    (1 - ([0] : List (Matrix (Fin 1) (Fin 1) ℂ)).getD 0 0)
      * ((propagator 1 [0]).getD 0 0)
    = ([0] : List (Matrix (Fin 1) (Fin 1) ℂ)).getD 0 0 :=
  propagator_roundtrip 1 [0] 0 (by norm_num)
    (by simp)

/-! ## Sensitivity-measure eigenvalue selection

`_sensitivity_measure` (lif/exp.py, lines 1084-1095) eigendecomposes the
effective connectivity per frequency and selects
`index = np.argmin(np.abs(e - 1))`: the first index whose eigenvalue has
minimal Euclidean distance to 1 in the complex plane.  Eigenvalues are
modelled as pairs of rational real and imaginary parts; since the Euclidean
distance `|e - 1|` is minimal exactly when its square is, the selection
compares the squared distance `(re - 1)^2 + im^2`, keeping the first index
of the minimum as `np.argmin` does. -/

def distToOneSq (z : ℚ × ℚ) : ℚ := (z.1 - 1) ^ 2 + z.2 ^ 2

def argminD (f : ℚ × ℚ → ℚ) (d : ℚ × ℚ) : List (ℚ × ℚ) → ℕ
  | [] => 0
  | [_] => 0
  | x :: y :: ys =>
      if f x ≤ f ((y :: ys).getD (argminD f d (y :: ys)) d) then 0
      else argminD f d (y :: ys) + 1

def selectEigenvalueIndex (eigvals : List (ℚ × ℚ)) : ℕ :=
  argminD distToOneSq (0, 0) eigvals

/-- Helper for C8: the element picked by the first-minimum index has minimal
value among all list elements. -/
theorem argminD_le (f : ℚ × ℚ → ℚ) (d : ℚ × ℚ) :
    ∀ (l : List (ℚ × ℚ)) (z : ℚ × ℚ), z ∈ l →
      f (l.getD (argminD f d l) d) ≤ f z := by
  intro l
  induction l with
  | nil => intro z hz; exact absurd hz (List.not_mem_nil z)
  | cons x xs ih =>
      intro z hz
      cases xs with
      | nil =>
          rcases List.mem_singleton.mp hz with rfl
          simp [argminD]
      | cons y ys =>
          have hunf : argminD f d (x :: y :: ys)
              = if f x ≤ f ((y :: ys).getD (argminD f d (y :: ys)) d) then 0
                else argminD f d (y :: ys) + 1 := rfl
          by_cases hx : f x ≤ f ((y :: ys).getD (argminD f d (y :: ys)) d)
          · rw [hunf, if_pos hx, List.getD_cons_zero]
            rcases List.mem_cons.mp hz with rfl | hz2
            · exact le_refl _
            · exact hx.trans (ih z hz2)
          · rw [hunf, if_neg hx, List.getD_cons_succ]
            rcases List.mem_cons.mp hz with rfl | hz2
            · exact le_of_lt (not_le.mp hx)
            · exact ih z hz2

/-- Claim C8: the sensitivity measure selects the eigenvalue with minimal
Euclidean distance to 1 in the complex plane (first index of the minimum,
as `np.argmin`): the selected eigenvalue has squared distance to 1 no
larger than any eigenvalue in the list; and for the concrete spectrum
{0.2, 0.95 + 0.1i, 0.5i} the selected index is 1, the eigenvalue
0.95 + 0.1i, regardless of eigenvalue magnitudes. -/
theorem sensitivity_eigenvalue_selection (eigvals : List (ℚ × ℚ))
    (z : ℚ × ℚ) (hz : z ∈ eigvals) :
    distToOneSq (eigvals.getD (selectEigenvalueIndex eigvals) (0, 0))
      ≤ distToOneSq z ∧
    selectEigenvalueIndex [(1/5, 0), (19/20, 1/10), (0, 1/2)] = 1 := by
  constructor
  · exact argminD_le distToOneSq (0, 0) eigvals z hz
  · norm_num [selectEigenvalueIndex, argminD, distToOneSq]

/-- Witness for C8 at the concrete spectrum of the claim. -/
theorem sensitivity_eigenvalue_selection_witness :
    distToOneSq (([(1/5, 0), (19/20, 1/10), (0, 1/2)] : List (ℚ × ℚ)).getD
        (selectEigenvalueIndex [(1/5, 0), (19/20, 1/10), (0, 1/2)]) (0, 0))
      ≤ distToOneSq (1/5, 0) ∧
    selectEigenvalueIndex [(1/5, 0), (19/20, 1/10), (0, 1/2)] = 1 :=
  sensitivity_eigenvalue_selection [(1/5, 0), (19/20, 1/10), (0, 1/2)]
    (1/5, 0) (by simp)

/-! ## Power spectra

`_power_spectra` (lif/exp.py, lines 1184-1190) computes, per frequency,
`Q = (I - W)^-1`, the diagonal matrix `A = diag(nu / N)`, and
`C = Q A Q^H`, then stores `power[i] = np.absolute(np.diag(C))`: the
complex modulus of the diagonal, not its real part. -/

noncomputable def powerSpectrumMatrix (n : ℕ) (W : Matrix (Fin n) (Fin n) ℂ)
    (nu N : Fin n → ℝ) : Matrix (Fin n) (Fin n) ℂ :=
  (1 - W)⁻¹ * Matrix.diagonal (fun k => ((nu k / N k : ℝ) : ℂ))
    * ((1 - W)⁻¹).conjTranspose

noncomputable def powerSpectrumEntry (n : ℕ) (W : Matrix (Fin n) (Fin n) ℂ)
    (nu N : Fin n → ℝ) (i : Fin n) : ℝ :=
  Complex.abs (powerSpectrumMatrix n W nu N i i)

/-- Definition following the words of the spec for C6: the output is the
real part of the diagonal of `C`. -/
noncomputable def powerSpectrumEntrySpec (n : ℕ)
    (W : Matrix (Fin n) (Fin n) ℂ) (nu N : Fin n → ℝ) (i : Fin n) : ℝ :=
  (powerSpectrumMatrix n W nu N i i).re

/-- Counterexample for C6: with one population, `W = 0` (so `I - W = I` is
invertible), rate `nu = -1` and size `N = 1`, the diagonal entry of `C` is
`-1`; the code outputs its absolute value `1`, which differs from the real
part `-1` required by the claim. -/
theorem power_spectra_abs_ne_re_counterexample :
    IsUnit (1 - (0 : Matrix (Fin 1) (Fin 1) ℂ)).det ∧
    powerSpectrumEntry 1 0 (fun _ => -1) (fun _ => 1) 0
      ≠ powerSpectrumEntrySpec 1 0 (fun _ => -1) (fun _ => 1) 0 := by
  have hM : powerSpectrumMatrix 1 0 (fun _ => -1) (fun _ => 1) 0 0
      = (-1 : ℂ) := by
    simp [powerSpectrumMatrix, inv_one, Matrix.conjTranspose_one,
      Matrix.diagonal_apply_eq]
  have habs : Complex.abs (-1) = 1 := by
    rw [show (-1 : ℂ) = ((-1 : ℝ) : ℂ) by norm_num, Complex.abs_ofReal]
    norm_num
  constructor
  · simp
  · simp only [powerSpectrumEntry, powerSpectrumEntrySpec, hM, habs]
    norm_num

/-- Claim C6, amended: per frequency the code outputs the complex modulus of
the diagonal of `C = Q A Q^H`; whenever every diagonal load `nu_k / N_k` is
nonnegative (the physical regime of nonnegative rates and positive
population sizes), the diagonal of `C` is real and nonnegative, so the
modulus coincides with the real part the claim demands. -/
theorem power_spectra_real_part (n : ℕ) (W : Matrix (Fin n) (Fin n) ℂ)
    (nu N : Fin n → ℝ) (i : Fin n)
    (hdet : IsUnit (1 - W).det) (hnu : ∀ k, 0 ≤ nu k / N k) :
    powerSpectrumEntry n W nu N i = powerSpectrumEntrySpec n W nu N i ∧
    0 ≤ powerSpectrumEntrySpec n W nu N i := by
  have hentry : powerSpectrumMatrix n W nu N i i
      = ((∑ j, (nu j / N j) * Complex.normSq ((1 - W)⁻¹ i j) : ℝ) : ℂ) := by
    simp only [powerSpectrumMatrix]
    rw [Matrix.mul_apply]
    simp only [Matrix.mul_diagonal, Matrix.conjTranspose_apply,
      RCLike.star_def]
    push_cast
    refine Finset.sum_congr rfl ?_
    intro j _
    rw [mul_right_comm, Complex.mul_conj]
    ring
  have hS : 0 ≤ ∑ j, (nu j / N j) * Complex.normSq ((1 - W)⁻¹ i j) :=
    Finset.sum_nonneg fun j _ =>
      mul_nonneg (hnu j) (Complex.normSq_nonneg _)
  constructor
  · simp only [powerSpectrumEntry, powerSpectrumEntrySpec, hentry]
    rw [Complex.abs_ofReal, Complex.ofReal_re, abs_of_nonneg hS]
  · simp only [powerSpectrumEntrySpec, hentry, Complex.ofReal_re]
    exact hS

/-- Witness for the amended C6: one population, zero connectivity, unit rate
and unit population size. -/
theorem power_spectra_real_part_witness :
    powerSpectrumEntry 1 0 (fun _ => 1) (fun _ => 1) 0
      = powerSpectrumEntrySpec 1 0 (fun _ => 1) (fun _ => 1) 0 ∧
    0 ≤ powerSpectrumEntrySpec 1 0 (fun _ => 1) (fun _ => 1) 0 :=
  power_spectra_real_part 1 0 (fun _ => 1) (fun _ => 1) 0
    (by simp) (fun k => by norm_num)

/-! ## Overflow-safe Phi reformulations

The reference helper `_Phi` (lif/exp.py, lines 815-828) is

    Phi(s) = sqrt(pi/2) * exp(s^2/2) * (1 + erf(s / sqrt(2)))

while `_Phi_neg` and `_Phi_pos` (lines 351-361) reformulate it through the
scaled complementary error function `erfcx(x) = exp(x^2) * (1 - erf(x))` to
avoid overflow.  The error function is modelled by its defining integral. -/

noncomputable def erf (x : ℝ) : ℝ :=
  2 / Real.sqrt Real.pi * ∫ t in (0:ℝ)..x, Real.exp (-t^2)

noncomputable def erfcx (x : ℝ) : ℝ := Real.exp (x^2) * (1 - erf x)

noncomputable def PhiFn (s : ℝ) : ℝ :=
  Real.sqrt (Real.pi / 2) * (Real.exp (s^2 / 2) * (1 + erf (s / Real.sqrt 2)))

noncomputable def Phi_neg (s : ℝ) : ℝ :=
  Real.sqrt (Real.pi / 2) * erfcx (|s| / Real.sqrt 2)

noncomputable def Phi_pos (s : ℝ) : ℝ :=
  Real.sqrt (Real.pi / 2)
    * (2 - Real.exp (-s^2 / 2) * erfcx (s / Real.sqrt 2))

/-- Helper for C10: the error function is odd. -/
theorem erf_neg_arg (x : ℝ) : erf (-x) = - erf x := by
  have key : (∫ t in (0:ℝ)..x, Real.exp (-(-t)^2))
      = ∫ t in -x..-(0:ℝ), Real.exp (-t^2) :=
    intervalIntegral.integral_comp_neg (fun t => Real.exp (-t^2))
  simp only [neg_sq, neg_zero] at key
  simp only [erf]
  rw [intervalIntegral.integral_symm (-x) 0, ← key]
  ring

/-- Helper for C10: square of a quotient by the square root of two. -/
theorem sq_div_sqrt_two (u : ℝ) : (u / Real.sqrt 2) ^ 2 = u ^ 2 / 2 := by
  rw [div_pow, Real.sq_sqrt (by norm_num : (0:ℝ) ≤ 2)]

/-- Claim C10: on their respective domains the overflow-safe reformulations
agree exactly with the reference helper in real arithmetic: for `s <= 0`,
`_Phi_neg(s) = Phi(s)`, and for `t >= 0`,
`_Phi_pos(t) = exp(-t^2/2) * Phi(t)`. -/
theorem phi_reformulations_agree (s t : ℝ) (hs : s ≤ 0) (ht : 0 ≤ t) :
    Phi_neg s = PhiFn s ∧
    Phi_pos t = Real.exp (-t^2 / 2) * PhiFn t := by
  constructor
  · rw [Phi_neg, PhiFn, abs_of_nonpos hs, erfcx]
    rw [show -s / Real.sqrt 2 = -(s / Real.sqrt 2) by ring]
    rw [neg_sq, sq_div_sqrt_two, erf_neg_arg]
    ring
  · rw [Phi_pos, PhiFn, erfcx, sq_div_sqrt_two]
    have hcancel : Real.exp (-t^2 / 2) * Real.exp (t^2 / 2) = 1 := by
      rw [← Real.exp_add, show -t^2 / 2 + t^2 / 2 = 0 by ring, Real.exp_zero]
    calc Real.sqrt (Real.pi / 2)
          * (2 - Real.exp (-t^2 / 2)
              * (Real.exp (t^2 / 2) * (1 - erf (t / Real.sqrt 2))))
        = Real.sqrt (Real.pi / 2)
            * (2 - (Real.exp (-t^2 / 2) * Real.exp (t^2 / 2))
                * (1 - erf (t / Real.sqrt 2))) := by ring
      _ = Real.sqrt (Real.pi / 2) * (1 + erf (t / Real.sqrt 2)) := by
          rw [hcancel]; ring
      _ = Real.exp (-t^2 / 2)
            * (Real.sqrt (Real.pi / 2)
               * (Real.exp (t^2 / 2) * (1 + erf (t / Real.sqrt 2)))) := by
          rw [show Real.exp (-t^2 / 2)
                * (Real.sqrt (Real.pi / 2)
                   * (Real.exp (t^2 / 2) * (1 + erf (t / Real.sqrt 2))))
              = Real.sqrt (Real.pi / 2)
                * ((Real.exp (-t^2 / 2) * Real.exp (t^2 / 2))
                   * (1 + erf (t / Real.sqrt 2))) by ring, hcancel]
          ring

/-- Witness for C10 at `s = -1` and `t = 1`. -/
theorem phi_reformulations_agree_witness :
    Phi_neg (-1) = PhiFn (-1) ∧
    Phi_pos 1 = Real.exp (-(1:ℝ)^2 / 2) * PhiFn 1 :=
  phi_reformulations_agree (-1) 1 (by norm_num) (by norm_num)

/-! ## Siegert rate engine

`_erfcx_integral` (aux_calcs.py, lines 202-208) computes the fixed-order
Gauss-Legendre quadrature of the scaled complementary error function from
`a` to `b`, rescaling the nodes and weights from `[-1, 1]`:

    (b - a) * sum(w * erfcx((b - a) * x / 2 + (b + a) / 2)) / 2

The scipy primitives are parameters of the embedding: `ef` models
`scipy.special.erfcx` (positive everywhere, bounded by 1 on the nonnegative
axis), `dw` models `scipy.special.dawsn` (characterized by its defining
integral `dawsn(x) = exp(-x^2) * int_0^x exp(t^2) dt`), and `glq` models the
weight/node pairs returned by `scipy.special.roots_legendre` (positive
weights summing to 2, nodes inside `[-1, 1]`).  The three Siegert branch
functions `_siegert_exc`, `_siegert_inh`, `_siegert_interm` (aux_calcs.py,
lines 211-233) and the dispatching scalar rate `nu_0` (lines 85-139) follow
the source expressions verbatim. -/

noncomputable def erfcxIntegral (ef : ℝ → ℝ) (glq : List (ℝ × ℝ)) (a b : ℝ) : ℝ :=
  (b - a)
    * (glq.map (fun p => p.1 * ef ((b - a) * p.2 / 2 + (b + a) / 2))).sum / 2

noncomputable def siegert_exc (ef : ℝ → ℝ) (glq : List (ℝ × ℝ))
    (tau_m t_ref y_th y_r : ℝ) : ℝ :=
  1 / (t_ref + tau_m * Real.sqrt Real.pi * erfcxIntegral ef glq |y_th| |y_r|)

noncomputable def siegert_inh (ef dw : ℝ → ℝ) (glq : List (ℝ × ℝ))
    (tau_m t_ref y_th y_r : ℝ) : ℝ :=
  Real.exp (-y_th^2)
    / (Real.exp (-y_th^2) * t_ref
       + tau_m * Real.sqrt Real.pi
         * (2 * dw y_th - 2 * Real.exp (y_r^2 - y_th^2) * dw y_r
            - Real.exp (-y_th^2) * erfcxIntegral ef glq y_r y_th))

noncomputable def siegert_interm (ef dw : ℝ → ℝ) (glq : List (ℝ × ℝ))
    (tau_m t_ref y_th y_r : ℝ) : ℝ :=
  Real.exp (-y_th^2)
    / (Real.exp (-y_th^2) * t_ref
       + tau_m * Real.sqrt Real.pi
         * (2 * dw y_th
            + Real.exp (-y_th^2) * erfcxIntegral ef glq y_th |y_r|))

noncomputable def nu_0 (ef dw : ℝ → ℝ) (glq : List (ℝ × ℝ))
    (tau_m tau_r V_th_rel V_0_rel mu sigma : ℝ) : ℝ :=
  if (V_th_rel - mu) / sigma < 0 then
    siegert_exc ef glq tau_m tau_r
      ((V_th_rel - mu) / sigma) ((V_0_rel - mu) / sigma)
  else if 0 < (V_0_rel - mu) / sigma then
    siegert_inh ef dw glq tau_m tau_r
      ((V_th_rel - mu) / sigma) ((V_0_rel - mu) / sigma)
  else
    siegert_interm ef dw glq tau_m tau_r
      ((V_th_rel - mu) / sigma) ((V_0_rel - mu) / sigma)

/-- Model of `scipy.special.dawsn`, used to discharge the Dawson-function
hypothesis of the C1 theorem at a concrete instance. -/
noncomputable def dawsnModel (x : ℝ) : ℝ :=
  Real.exp (-x^2) * ∫ t in (0:ℝ)..x, Real.exp (t^2)

/-- Helper for C1: the rescaled Gauss-Legendre node stays inside `[a, b]`
when `a <= b`. -/
theorem glArg_mem_of_le (a b x : ℝ) (hx : |x| ≤ 1) (hab : a ≤ b) :
    a ≤ (b - a) * x / 2 + (b + a) / 2 ∧
    (b - a) * x / 2 + (b + a) / 2 ≤ b := by
  rw [abs_le] at hx
  constructor <;> nlinarith [hx.1, hx.2]

/-- Helper for C1: the rescaled Gauss-Legendre node stays inside `[b, a]`
when the integration bounds are reversed. -/
theorem glArg_mem_of_ge (a b x : ℝ) (hx : |x| ≤ 1) (hba : b ≤ a) :
    b ≤ (b - a) * x / 2 + (b + a) / 2 ∧
    (b - a) * x / 2 + (b + a) / 2 ≤ a := by
  rw [abs_le] at hx
  constructor <;> nlinarith [hx.1, hx.2]

/-- Helper for C1: the Gauss-Legendre quadrature of a positive integrand
with positive weights over a nondegenerate range is positive. -/
theorem erfcxIntegral_pos (ef : ℝ → ℝ) (glq : List (ℝ × ℝ)) (a b : ℝ)
    (hne : glq ≠ []) (hw : ∀ p ∈ glq, 0 < p.1)
    (hef_pos : ∀ x, 0 < ef x) (hab : a < b) :
    0 < erfcxIntegral ef glq a b := by
  unfold erfcxIntegral
  have hsum : 0 <
      (glq.map (fun p => p.1 * ef ((b - a) * p.2 / 2 + (b + a) / 2))).sum := by
    refine List.sum_pos _ ?_ ?_
    · intro x hx
      rcases List.mem_map.mp hx with ⟨p, hp, rfl⟩
      exact mul_pos (hw p hp) (hef_pos _)
    · simpa using hne
  have hba : 0 < b - a := sub_pos.mpr hab
  positivity

/-- Helper for C1: the Gauss-Legendre quadrature with positive weights is
nonnegative whenever the range is ordered. -/
theorem erfcxIntegral_nonneg (ef : ℝ → ℝ) (glq : List (ℝ × ℝ)) (a b : ℝ)
    (hw : ∀ p ∈ glq, 0 < p.1) (hef_pos : ∀ x, 0 < ef x) (hab : a ≤ b) :
    0 ≤ erfcxIntegral ef glq a b := by
  unfold erfcxIntegral
  have hsum : 0 ≤
      (glq.map (fun p => p.1 * ef ((b - a) * p.2 / 2 + (b + a) / 2))).sum := by
    refine List.sum_nonneg ?_
    intro x hx
    rcases List.mem_map.mp hx with ⟨p, hp, rfl⟩
    exact le_of_lt (mul_pos (hw p hp) (hef_pos _))
  have hba : 0 ≤ b - a := sub_nonneg.mpr hab
  positivity

/-- Helper for C1: with `erfcx <= 1` on the nonnegative axis, positive
weights summing to 2 and nodes in `[-1, 1]`, the quadrature over
`0 <= a <= b` is at most `b - a`. -/
theorem erfcxIntegral_le (ef : ℝ → ℝ) (glq : List (ℝ × ℝ)) (a b : ℝ)
    (hw : ∀ p ∈ glq, 0 < p.1) (hxb : ∀ p ∈ glq, |p.2| ≤ 1)
    (hsum : (glq.map (fun p => p.1)).sum = 2)
    (hef_le : ∀ x, 0 ≤ x → ef x ≤ 1)
    (ha : 0 ≤ a) (hab : a ≤ b) :
    erfcxIntegral ef glq a b ≤ b - a := by
  unfold erfcxIntegral
  have hterm : ∀ p ∈ glq,
      p.1 * ef ((b - a) * p.2 / 2 + (b + a) / 2) ≤ p.1 := by
    intro p hp
    have harg := glArg_mem_of_le a b p.2 (hxb p hp) hab
    have hnn : 0 ≤ (b - a) * p.2 / 2 + (b + a) / 2 := le_trans ha harg.1
    exact mul_le_of_le_one_right (le_of_lt (hw p hp)) (hef_le _ hnn)
  have hS : (glq.map (fun p => p.1 * ef ((b - a) * p.2 / 2 + (b + a) / 2))).sum
      ≤ (glq.map (fun p => p.1)).sum := List.sum_le_sum hterm
  rw [hsum] at hS
  have hba : 0 ≤ b - a := sub_nonneg.mpr hab
  calc (b - a)
        * (glq.map (fun p => p.1 * ef ((b - a) * p.2 / 2 + (b + a) / 2))).sum
        / 2
      ≤ (b - a) * 2 / 2 := by
        apply div_le_div_of_nonneg_right ?_ (by norm_num)
        exact mul_le_mul_of_nonneg_left hS hba
    _ = b - a := by ring

/-- Helper for C1: when the bounds are reversed (`0 <= b <= a`) the
quadrature value is negative but no smaller than `b - a`. -/
theorem erfcxIntegral_ge (ef : ℝ → ℝ) (glq : List (ℝ × ℝ)) (a b : ℝ)
    (hw : ∀ p ∈ glq, 0 < p.1) (hxb : ∀ p ∈ glq, |p.2| ≤ 1)
    (hsum : (glq.map (fun p => p.1)).sum = 2)
    (hef_le : ∀ x, 0 ≤ x → ef x ≤ 1)
    (hb : 0 ≤ b) (hba : b ≤ a) :
    b - a ≤ erfcxIntegral ef glq a b := by
  unfold erfcxIntegral
  have hterm : ∀ p ∈ glq,
      p.1 * ef ((b - a) * p.2 / 2 + (b + a) / 2) ≤ p.1 := by
    intro p hp
    have harg := glArg_mem_of_ge a b p.2 (hxb p hp) hba
    have hnn : 0 ≤ (b - a) * p.2 / 2 + (b + a) / 2 := le_trans hb harg.1
    exact mul_le_of_le_one_right (le_of_lt (hw p hp)) (hef_le _ hnn)
  have hS : (glq.map (fun p => p.1 * ef ((b - a) * p.2 / 2 + (b + a) / 2))).sum
      ≤ (glq.map (fun p => p.1)).sum := List.sum_le_sum hterm
  rw [hsum] at hS
  have hba2 : b - a ≤ 0 := sub_nonpos.mpr hba
  calc b - a = (b - a) * 2 / 2 := by ring
    _ ≤ (b - a)
          * (glq.map (fun p => p.1 * ef ((b - a) * p.2 / 2 + (b + a) / 2))).sum
          / 2 := by
        apply div_le_div_of_nonneg_right ?_ (by norm_num)
        exact mul_le_mul_of_nonpos_left hS hba2

/-- Helper for C1: the Dawson function is nonnegative on the nonnegative
axis. -/
theorem dawsn_nonneg (dw : ℝ → ℝ)
    (hdw : ∀ x, dw x = Real.exp (-x^2) * ∫ t in (0:ℝ)..x, Real.exp (t^2))
    (x : ℝ) (hx : 0 ≤ x) : 0 ≤ dw x := by
  rw [hdw x]
  refine mul_nonneg (le_of_lt (Real.exp_pos _)) ?_
  exact intervalIntegral.integral_nonneg hx
    (fun t _ => le_of_lt (Real.exp_pos _))

/-- Helper for C1: lower bound on the Dawson-function combination appearing
in the inhibitory and intermediate Siegert branches, derived from the
defining integral of the Dawson function. -/
theorem dawsn_diff_ge (dw : ℝ → ℝ)
    (hdw : ∀ x, dw x = Real.exp (-x^2) * ∫ t in (0:ℝ)..x, Real.exp (t^2))
    (a b : ℝ) (ha : 0 ≤ a) (hab : a ≤ b) :
    2 * (b - a) * Real.exp (-b^2)
      ≤ 2 * dw b - 2 * Real.exp (a^2 - b^2) * dw a := by
  rw [hdw a, hdw b]
  have hcont : Continuous fun t : ℝ => Real.exp (t^2) :=
    Real.continuous_exp.comp (continuous_pow 2)
  have hIb : IntervalIntegrable (fun t : ℝ => Real.exp (t^2))
      MeasureTheory.volume 0 b := hcont.intervalIntegrable 0 b
  have hIa : IntervalIntegrable (fun t : ℝ => Real.exp (t^2))
      MeasureTheory.volume 0 a := hcont.intervalIntegrable 0 a
  have hIab : IntervalIntegrable (fun t : ℝ => Real.exp (t^2))
      MeasureTheory.volume a b := hcont.intervalIntegrable a b
  have hsub : (∫ t in (0:ℝ)..b, Real.exp (t^2))
      - ∫ t in (0:ℝ)..a, Real.exp (t^2)
      = ∫ t in a..b, Real.exp (t^2) :=
    intervalIntegral.integral_interval_sub_left hIb hIa
  have hmono : (b - a : ℝ) ≤ ∫ t in a..b, Real.exp (t^2) := by
    have h1 : ∀ t ∈ Set.Icc a b, (1:ℝ) ≤ Real.exp (t^2) := by
      intro t _
      nlinarith [Real.add_one_le_exp (t^2), sq_nonneg t]
    have h2 := intervalIntegral.integral_mono_on hab
      intervalIntegrable_const hIab h1
    rw [intervalIntegral.integral_const] at h2
    simpa using h2
  have hexp : Real.exp (a^2 - b^2) * Real.exp (-a^2) = Real.exp (-b^2) := by
    rw [← Real.exp_add, show a^2 - b^2 + -a^2 = -b^2 by ring]
  have key : 2 * (Real.exp (-b^2) * ∫ t in (0:ℝ)..b, Real.exp (t^2))
      - 2 * Real.exp (a^2 - b^2)
          * (Real.exp (-a^2) * ∫ t in (0:ℝ)..a, Real.exp (t^2))
      = 2 * Real.exp (-b^2) * ∫ t in a..b, Real.exp (t^2) := by
    rw [mul_assoc 2 (Real.exp (a^2 - b^2)) _,
      show Real.exp (a^2 - b^2)
          * (Real.exp (-a^2) * ∫ t in (0:ℝ)..a, Real.exp (t^2))
        = (Real.exp (a^2 - b^2) * Real.exp (-a^2))
          * ∫ t in (0:ℝ)..a, Real.exp (t^2) by ring, hexp, ← hsub]
    ring
  rw [key]
  have hfac : (0:ℝ) ≤ 2 * Real.exp (-b^2) := by positivity
  nlinarith [mul_le_mul_of_nonneg_left hmono hfac]

/-- Helper for C1: bounds of the excitatory Siegert branch. -/
theorem siegert_exc_bounds (ef : ℝ → ℝ) (glq : List (ℝ × ℝ))
    (tau_m t_ref y_th y_r : ℝ)
    (hne : glq ≠ []) (hw : ∀ p ∈ glq, 0 < p.1) (hef_pos : ∀ x, 0 < ef x)
    (htm : 0 < tau_m) (htr : 0 < t_ref)
    (hth : y_th < 0) (hr : y_r < y_th) :
    0 < siegert_exc ef glq tau_m t_ref y_th y_r ∧
    siegert_exc ef glq tau_m t_ref y_th y_r ≤ 1 / t_ref := by
  have habs : |y_th| < |y_r| := by
    rw [abs_of_neg hth, abs_of_neg (hr.trans hth)]
    linarith
  have hQ : 0 < erfcxIntegral ef glq |y_th| |y_r| :=
    erfcxIntegral_pos ef glq _ _ hne hw hef_pos habs
  have hpi : 0 < Real.sqrt Real.pi := Real.sqrt_pos.mpr Real.pi_pos
  have hden : t_ref
      < t_ref + tau_m * Real.sqrt Real.pi * erfcxIntegral ef glq |y_th| |y_r|
      := by nlinarith [mul_pos (mul_pos htm hpi) hQ]
  simp only [siegert_exc]
  constructor
  · exact one_div_pos.mpr (htr.trans hden)
  · exact one_div_le_one_div_of_le htr (le_of_lt hden)

/-- Helper for C1: bounds of the inhibitory Siegert branch. -/
theorem siegert_inh_bounds (ef dw : ℝ → ℝ) (glq : List (ℝ × ℝ))
    (tau_m t_ref y_th y_r : ℝ)
    (hw : ∀ p ∈ glq, 0 < p.1) (hxb : ∀ p ∈ glq, |p.2| ≤ 1)
    (hsum : (glq.map (fun p => p.1)).sum = 2)
    (hef_le : ∀ x, 0 ≤ x → ef x ≤ 1)
    (hdw : ∀ x, dw x = Real.exp (-x^2) * ∫ t in (0:ℝ)..x, Real.exp (t^2))
    (htm : 0 < tau_m) (htr : 0 < t_ref)
    (hr : 0 < y_r) (hry : y_r < y_th) :
    0 < siegert_inh ef dw glq tau_m t_ref y_th y_r ∧
    siegert_inh ef dw glq tau_m t_ref y_th y_r ≤ 1 / t_ref := by
  simp only [siegert_inh]
  have hE : 0 < Real.exp (-y_th^2) := Real.exp_pos _
  have hQle : erfcxIntegral ef glq y_r y_th ≤ y_th - y_r :=
    erfcxIntegral_le ef glq y_r y_th hw hxb hsum hef_le
      (le_of_lt hr) (le_of_lt hry)
  have hD : 2 * (y_th - y_r) * Real.exp (-y_th^2)
      ≤ 2 * dw y_th - 2 * Real.exp (y_r^2 - y_th^2) * dw y_r :=
    dawsn_diff_ge dw hdw y_r y_th (le_of_lt hr) (le_of_lt hry)
  have hEQ : Real.exp (-y_th^2) * erfcxIntegral ef glq y_r y_th
      ≤ Real.exp (-y_th^2) * (y_th - y_r) :=
    mul_le_mul_of_nonneg_left hQle (le_of_lt hE)
  have hInt : 0 < 2 * dw y_th - 2 * Real.exp (y_r^2 - y_th^2) * dw y_r
      - Real.exp (-y_th^2) * erfcxIntegral ef glq y_r y_th := by
    nlinarith [hD, hEQ, mul_pos hE (sub_pos.mpr hry)]
  have hpi : 0 < Real.sqrt Real.pi := Real.sqrt_pos.mpr Real.pi_pos
  have hden : Real.exp (-y_th^2) * t_ref
      < Real.exp (-y_th^2) * t_ref
        + tau_m * Real.sqrt Real.pi
          * (2 * dw y_th - 2 * Real.exp (y_r^2 - y_th^2) * dw y_r
             - Real.exp (-y_th^2) * erfcxIntegral ef glq y_r y_th) := by
    nlinarith [mul_pos (mul_pos htm hpi) hInt]
  have hdenpos : 0 < Real.exp (-y_th^2) * t_ref
        + tau_m * Real.sqrt Real.pi
          * (2 * dw y_th - 2 * Real.exp (y_r^2 - y_th^2) * dw y_r
             - Real.exp (-y_th^2) * erfcxIntegral ef glq y_r y_th) :=
    lt_trans (mul_pos hE htr) hden
  constructor
  · exact div_pos hE hdenpos
  · rw [div_le_div_iff hdenpos htr]
    nlinarith [hden]

/-- Helper for C1: bounds of the intermediate Siegert branch. -/
theorem siegert_interm_bounds (ef dw : ℝ → ℝ) (glq : List (ℝ × ℝ))
    (tau_m t_ref y_th y_r : ℝ)
    (hne : glq ≠ []) (hw : ∀ p ∈ glq, 0 < p.1)
    (hxb : ∀ p ∈ glq, |p.2| ≤ 1)
    (hsum : (glq.map (fun p => p.1)).sum = 2)
    (hef_pos : ∀ x, 0 < ef x) (hef_le : ∀ x, 0 ≤ x → ef x ≤ 1)
    (hdw : ∀ x, dw x = Real.exp (-x^2) * ∫ t in (0:ℝ)..x, Real.exp (t^2))
    (htm : 0 < tau_m) (htr : 0 < t_ref)
    (hyr : y_r ≤ 0) (hyth : 0 ≤ y_th) (hry : y_r < y_th) :
    0 < siegert_interm ef dw glq tau_m t_ref y_th y_r ∧
    siegert_interm ef dw glq tau_m t_ref y_th y_r ≤ 1 / t_ref := by
  simp only [siegert_interm]
  rw [abs_of_nonpos hyr]
  have hE : 0 < Real.exp (-y_th^2) := Real.exp_pos _
  have hdw0 : dw 0 = 0 := by
    rw [hdw 0]
    simp
  have hD := dawsn_diff_ge dw hdw 0 y_th le_rfl hyth
  rw [hdw0] at hD
  have hD2 : 2 * y_th * Real.exp (-y_th^2) ≤ 2 * dw y_th := by nlinarith [hD]
  have hInt : 0 < 2 * dw y_th
      + Real.exp (-y_th^2) * erfcxIntegral ef glq y_th (-y_r) := by
    rcases le_or_lt y_th (-y_r) with hc | hc
    · have hG0 : 0 ≤ erfcxIntegral ef glq y_th (-y_r) :=
        erfcxIntegral_nonneg ef glq y_th (-y_r) hw hef_pos hc
      rcases eq_or_lt_of_le hyth with h0 | h0
      · have hyr' : y_r < 0 := by rw [← h0] at hry; exact hry
        have hGpos : 0 < erfcxIntegral ef glq y_th (-y_r) := by
          refine erfcxIntegral_pos ef glq y_th (-y_r) hne hw hef_pos ?_
          rw [← h0]
          linarith
        have hdwnn : 0 ≤ dw y_th := dawsn_nonneg dw hdw y_th hyth
        nlinarith [mul_pos hE hGpos]
      · nlinarith [hD2, mul_nonneg (le_of_lt hE) hG0]
    · have hGge : (-y_r) - y_th ≤ erfcxIntegral ef glq y_th (-y_r) :=
        erfcxIntegral_ge ef glq y_th (-y_r) hw hxb hsum hef_le
          (neg_nonneg.mpr hyr) (le_of_lt hc)
      have hyth_pos : 0 < y_th := lt_of_le_of_lt (neg_nonneg.mpr hyr) hc
      have hEG : Real.exp (-y_th^2) * ((-y_r) - y_th)
          ≤ Real.exp (-y_th^2) * erfcxIntegral ef glq y_th (-y_r) :=
        mul_le_mul_of_nonneg_left hGge (le_of_lt hE)
      nlinarith [hD2, hEG, hE, hry]
  have hpi : 0 < Real.sqrt Real.pi := Real.sqrt_pos.mpr Real.pi_pos
  have hden : Real.exp (-y_th^2) * t_ref
      < Real.exp (-y_th^2) * t_ref
        + tau_m * Real.sqrt Real.pi
          * (2 * dw y_th
             + Real.exp (-y_th^2) * erfcxIntegral ef glq y_th (-y_r)) := by
    nlinarith [mul_pos (mul_pos htm hpi) hInt]
  have hdenpos : 0 < Real.exp (-y_th^2) * t_ref
        + tau_m * Real.sqrt Real.pi
          * (2 * dw y_th
             + Real.exp (-y_th^2) * erfcxIntegral ef glq y_th (-y_r)) :=
    lt_trans (mul_pos hE htr) hden
  constructor
  · exact div_pos hE hdenpos
  · rw [div_le_div_iff hdenpos htr]
    nlinarith [hden]

/-- Claim C1: for every input with `sigma > 0`, `tau_m > 0`, `tau_r > 0` and
`V_th_rel > V_0_rel`, the delta-synapse rate `nu_0` returns — in whichever of
its three branches `_siegert_exc`, `_siegert_inh`, `_siegert_interm` the
input falls (the proof is a case split over exactly these three branches,
each handled by its own bound lemma) — a value strictly greater than 0 and
at most `1 / tau_r`.  The scipy primitives are constrained by their true
properties: `erfcx` is positive and at most 1 on the nonnegative axis,
`dawsn` satisfies its defining integral, and the Gauss-Legendre rule has
positive weights summing to 2, with nodes in `[-1, 1]`. -/
theorem nu_0_rate_in_range (ef dw : ℝ → ℝ) (glq : List (ℝ × ℝ))
    (tau_m tau_r V_th_rel V_0_rel mu sigma : ℝ)
    (hef_pos : ∀ x, 0 < ef x) (hef_le : ∀ x, 0 ≤ x → ef x ≤ 1)
    (hdw : ∀ x, dw x = Real.exp (-x^2) * ∫ t in (0:ℝ)..x, Real.exp (t^2))
    (hne : glq ≠ []) (hw : ∀ p ∈ glq, 0 < p.1)
    (hxb : ∀ p ∈ glq, |p.2| ≤ 1)
    (hsum : (glq.map (fun p => p.1)).sum = 2)
    (htm : 0 < tau_m) (htr : 0 < tau_r) (hsig : 0 < sigma)
    (hV : V_0_rel < V_th_rel) :
    0 < nu_0 ef dw glq tau_m tau_r V_th_rel V_0_rel mu sigma ∧
    nu_0 ef dw glq tau_m tau_r V_th_rel V_0_rel mu sigma ≤ 1 / tau_r := by
  have hyy : (V_0_rel - mu) / sigma < (V_th_rel - mu) / sigma :=
    (div_lt_div_right hsig).mpr (sub_lt_sub_right hV mu)
  simp only [nu_0]
  split_ifs with h1 h2
  · exact siegert_exc_bounds ef glq tau_m tau_r _ _
      hne hw hef_pos htm htr h1 hyy
  · exact siegert_inh_bounds ef dw glq tau_m tau_r _ _
      hw hxb hsum hef_le hdw htm htr h2 hyy
  · exact siegert_interm_bounds ef dw glq tau_m tau_r _ _
      hne hw hxb hsum hef_pos hef_le hdw htm htr
      (not_lt.mp h2) (not_lt.mp h1) hyy

/-- Witness for C1 at the concrete input `tau_m = tau_r = sigma = 1`,
`V_th_rel = 1`, `V_0_rel = mu = 0` (intermediate branch), with the one-point
Gauss-Legendre rule (node 0, weight 2), constant-one `erfcx` instance and
the integral model of the Dawson function. -/
theorem nu_0_rate_in_range_witness :
    0 < nu_0 (fun _ => 1) dawsnModel [(2, 0)] 1 1 1 0 0 1 ∧
    nu_0 (fun _ => 1) dawsnModel [(2, 0)] 1 1 1 0 0 1 ≤ 1 / 1 :=
  nu_0_rate_in_range (fun _ => 1) dawsnModel [(2, 0)] 1 1 1 0 0 1
    (fun _ => one_pos) (fun _ _ => le_refl 1)
    (fun _ => rfl)
    (by simp)
    (by intro p hp; rw [List.mem_singleton] at hp; subst hp; norm_num)
    (by intro p hp; rw [List.mem_singleton] at hp; subst hp; norm_num)
    (by norm_num)
    one_pos one_pos one_pos (by norm_num)

end Nnmt
